import Mathlib

/-!
Verification of the key-resolution engine of the `vscode-ext-show-translation`
extension.  The definitions below are a shallow embedding of the functions in
`src/extension.ts` (the current 520-line revision): `getValueByKey`,
`extractKeyFromFullText`, `buildRegexFromVariables` (its `.test` behaviour),
`getFullTextAtPosition`, `getBestKeyFromFullText`, the completion provider's
suggestion loop, and the document store `handleJsonCacheAndWatcher` /
`loadFile`.  JavaScript strings are modelled through their character lists;
JSON values are modelled by the inductive type `Json`.
-/

set_option maxRecDepth 4096

/-- Characters of a string (JS strings are ASCII in every input considered,
so code-unit indexing coincides with character indexing). -/
def chars (s : String) : List Char := s.data

/-- Rebuild a string from characters. -/
def ofChars (l : List Char) : String := String.mk l

theorem chars_ofChars (l : List Char) : chars (ofChars l) = l := rfl

theorem ofChars_chars (s : String) : ofChars (chars s) = s := rfl

/-- Tests that `needle` is a prefix of `hay` (JS `String.prototype.startsWith`). -/
def isPrefixL : List Char → List Char → Bool
  | [], _ => true
  | _ :: _, [] => false
  | a :: as, b :: bs => if a = b then isPrefixL as bs else false

/-- Tests that `needle` occurs somewhere inside `hay` (what an unanchored regex literal
alternative tests). -/
def containsL : List Char → List Char → Bool
  | needle, [] => needle.isEmpty
  | needle, c :: rest => isPrefixL needle (c :: rest) || containsL needle rest

/-- JS `String.prototype.split` with separator `"."`: note that the empty
string splits into `[""]`, i.e. one empty segment, never into `[]`. -/
def splitSegs : List Char → List (List Char)
  | [] => [[]]
  | c :: rest =>
    let r := splitSegs rest
    if c = '.' then [] :: r
    else
      match r with
      | s :: tl => (c :: s) :: tl
      | [] => [[c]]

/-- Model of `key.split(".")` on strings. -/
def jsSplitDot (s : String) : List String := (splitSegs (chars s)).map ofChars

theorem splitSegs_ne_nil (l : List Char) : splitSegs l ≠ [] := by
  cases l with
  | nil => simp [splitSegs]
  | cons c rest =>
    simp only [splitSegs]
    cases h : splitSegs rest with
    | nil => exact absurd h (splitSegs_ne_nil rest)
    | cons s tl =>
      by_cases hc : c = '.' <;> simp [hc]

theorem jsSplitDot_ne_nil (s : String) : jsSplitDot s ≠ [] := by
  simp only [jsSplitDot, ne_eq, List.map_eq_nil_iff]
  exact splitSegs_ne_nil (chars s)

/-- A JSON value as produced by `JSON.parse`: object entries keep source
order; leaves are strings, numbers, booleans or `null`. -/
inductive Json where
  | str (s : String)
  | num (n : Int)
  | bool (b : Bool)
  | null
  | arr (elems : List Json)
  | obj (entries : List (String × Json))
  deriving Repr

/-- First entry with the given key in an association list
(JS objects keep one value per key, so the first hit is the value). -/
def lookupEntries {α : Type} : List (String × α) → String → Option α
  | [], _ => none
  | (k', v) :: rest, k => if k' = k then some v else lookupEntries rest k

/-- Canonical decimal array index: `"0"`, `"1"`, ... (JS arrays expose exactly
these as indexed properties; `"00"` or `"-1"` are not indices). -/
def decIndex? (s : String) : Option Nat :=
  match chars s with
  | [] => none
  | c :: rest =>
    if c = '0' then (if rest = [] then some 0 else none)
    else if '1' ≤ c ∧ c ≤ '9' then
      if rest.all (fun d => '0' ≤ d ∧ d ≤ '9') then
        some ((c :: rest).foldl (fun n d => 10 * n + (d.toNat - 48)) 0)
      else none
    else none

/-- One JS property access `node[key]` on a JSON value: objects index by
entry name, arrays by canonical decimal index, every other value (leaves and
`null`) yields `undefined`. -/
def jsIndex : Json → String → Option Json
  | .obj entries, k => lookupEntries entries k
  | .arr xs, k =>
    match decIndex? k with
    | some i => xs.get? i
    | none => none
  | _, _ => none

/-- Model of `getValueByKey(obj, key)` from `src/extension.ts`:
`key.split(".").reduce((acc, cur) => acc?.[cur], obj)` — split the key on
`.` and optional-chain one property access per segment. -/
def getValueByKey (obj : Json) (key : String) : Option Json :=
  (jsSplitDot key).foldl (fun acc cur => acc.bind (fun j => jsIndex j cur)) (some obj)

/-- The walk the spec describes: index the current node by each segment name
in turn; `undefined` as soon as a segment is absent or the node is not an
indexable container; otherwise the final node. -/
def walkSegments : Json → List String → Option Json
  | t, [] => some t
  | t, s :: rest =>
    match jsIndex t s with
    | none => none
    | some u => walkSegments u rest

theorem foldl_bind_none (segs : List String) :
    segs.foldl (fun acc cur => acc.bind (fun j => jsIndex j cur)) none = none := by
  induction segs with
  | nil => rfl
  | cons s rest ih => simpa using ih

theorem foldl_eq_walkSegments (segs : List String) (t : Json) :
    segs.foldl (fun acc cur => acc.bind (fun j => jsIndex j cur)) (some t) =
      walkSegments t segs := by
  induction segs generalizing t with
  | nil => rfl
  | cons s rest ih =>
    simp only [List.foldl_cons, walkSegments]
    cases h : jsIndex t s with
    | none => simpa [h] using foldl_bind_none rest
    | some u => simpa [h] using ih u

/-- Claim C1, counterexample.  The claim states that lookup with the empty key
returns the tree itself.  On the code, `"".split(".")` is `[""]`, so
`getValueByKey(tree, "")` looks up the empty-string property: on the tree
`{"a": "x"}` it returns `undefined`, not the tree. -/
theorem getValueByKey_empty_key_cex :
    getValueByKey (Json.obj [("a", Json.str "x")]) "" = none := rfl

/-- Claim C1, amended.  The function `getValueByKey` splits the key on `.` — the empty key
yielding a single empty segment, not zero segments — and walks the segments,
indexing the current node by segment name, returning `undefined` as soon as a
segment is absent or the current node is not an indexable container, and the
final node otherwise.  Consequently lookup with the empty key returns the
value at the empty-string property (usually `undefined`), never the tree
itself. -/
theorem getValueByKey_splits_and_walks :
    (∀ (t : Json) (key : String),
        getValueByKey t key = walkSegments t (jsSplitDot key)) ∧
    (∀ t : Json, getValueByKey t "" = jsIndex t "") := by
  constructor
  · intro t key
    exact foldl_eq_walkSegments (jsSplitDot key) t
  · intro t
    rfl

/-- The default `matchStrings` configuration of `src/extension.ts`. -/
def defaultMatchStrings : List String := ["this._translate", "_translate", "translate", "trans"]

/-- Model of `raw.replace(/^\./, "")`: drop one leading dot, if present. -/
def stripLeadingDot (s : String) : String :=
  match chars s with
  | '.' :: rest => ofChars rest
  | _ => s

/-- Model of `buildRegexFromVariables(vars).test(s)`: the compiled pattern is the
unanchored `(?:v1|...|vn)(\.[a-zA-Z0-9_]+)*` with every variable name
regex-escaped, and its suffix group can match the empty string, so the test
succeeds exactly when some variable name occurs as a literal substring of `s`
(with an empty variable list the empty alternation matches everywhere). -/
def regexTestFromVariables (vars : List String) (s : String) : Bool :=
  vars.isEmpty || vars.any (fun v => containsL (chars v) (chars s))

/-- The prefix loop of `extractKeyFromFullText`: for each configured prefix
in order, if the text equals the prefix or starts with `prefix + "."`, slice
the prefix off and strip one following dot. -/
def extractLoop (matchStrings : List String) (fullText : String) : Option String :=
  match matchStrings with
  | [] => none
  | p :: rest =>
    if fullText == p || isPrefixL (chars (p ++ ".")) (chars fullText) then
      some (stripLeadingDot (ofChars ((chars fullText).drop (chars p).length)))
    else extractLoop rest fullText

/-- Model of `extractKeyFromFullText(fullText)` from `src/extension.ts`, parameterised
by the configured `matchStrings`: guard the empty text, test the compiled
regex, then run the prefix loop; `null` if nothing matches. -/
def extractKeyFromFullText (matchStrings : List String) (fullText : String) :
    Option String :=
  if fullText = "" then none
  else if regexTestFromVariables matchStrings fullText then
    extractLoop matchStrings fullText
  else none

/-- The claim's description of `extractKey`: the first configured prefix that
the text equals exactly or starts with followed by `.` determines the result;
that prefix and one following dot are stripped. -/
def specExtractKey (matchStrings : List String) (fullText : String) :
    Option String :=
  (matchStrings.find? (fun p =>
      fullText == p || isPrefixL (chars (p ++ ".")) (chars fullText))).map
    (fun p => stripLeadingDot (ofChars ((chars fullText).drop (chars p).length)))

theorem isPrefixL_refl (l : List Char) : isPrefixL l l = true := by
  induction l with
  | nil => rfl
  | cons c rest ih => simp [isPrefixL, ih]

theorem isPrefixL_of_append (a b c : List Char)
    (h : isPrefixL (a ++ b) c = true) : isPrefixL a c = true := by
  induction a generalizing c with
  | nil => rfl
  | cons x xs ih =>
    cases c with
    | nil => simp [isPrefixL] at h
    | cons y ys =>
      simp only [List.cons_append, isPrefixL] at h ⊢
      by_cases hxy : x = y
      · simp only [hxy, if_pos rfl] at h ⊢
        exact ih ys h
      · simp [hxy] at h

theorem containsL_of_isPrefixL (a c : List Char)
    (h : isPrefixL a c = true) : containsL a c = true := by
  cases c with
  | nil =>
    cases a with
    | nil => rfl
    | cons x xs => simp [isPrefixL] at h
  | cons y ys => simp [containsL, h]

theorem chars_append (a b : String) : chars (a ++ b) = chars a ++ chars b := by
  simp [chars]

theorem extractLoop_eq_specExtractKey (matchStrings : List String)
    (s : String) : extractLoop matchStrings s = specExtractKey matchStrings s := by
  induction matchStrings with
  | nil => rfl
  | cons p rest ih =>
    by_cases h : (s == p || isPrefixL (chars (p ++ ".")) (chars s)) = true
    · simp [extractLoop, specExtractKey, List.find?, h]
    · simp only [Bool.not_eq_true] at h
      simp only [extractLoop, specExtractKey, List.find?, h]
      simpa [specExtractKey] using ih

theorem containsL_of_loopHit (p : String) (s : String)
    (h : (s == p || isPrefixL (chars (p ++ ".")) (chars s)) = true) :
    containsL (chars p) (chars s) = true := by
  rcases Bool.or_eq_true_iff.mp h with heq | hpre
  · have : s = p := by simpa using heq
    subst this
    exact containsL_of_isPrefixL _ _ (isPrefixL_refl (chars s))
  · have : isPrefixL (chars p) (chars s) = true := by
      refine isPrefixL_of_append (chars p) (chars ".") (chars s) ?_
      rw [← chars_append]
      exact hpre
    exact containsL_of_isPrefixL _ _ this

/-- Claim C3, counterexample.  The claim quantifies over every span and every
prefix list: with the empty string configured as a prefix and the empty span,
the span equals that prefix exactly, so by the claim's rule the (empty)
remainder should be returned; the code instead returns `null` through its
initial empty-span guard, before any prefix is tried. -/
theorem extractKeyFromFullText_empty_span_cex :
    extractKeyFromFullText [""] "" = none ∧ specExtractKey [""] "" = some "" :=
  ⟨rfl, rfl⟩

/-- Claim C3, amended.  For every *non-empty* span and every ordered prefix
list, `extractKeyFromFullText` returns the candidate key determined by the
first configured prefix that the span either equals exactly or starts with
followed by `.`, with that prefix and one following dot stripped and the
possibly-empty remainder returned, and `none` when no prefix satisfies this
(an empty span always yields `none`).  In particular
`extractKey("_translate.A.B")` is `"A.B"`, `extractKey("this._translate")`
is the empty key, and `extractKey("unrelated.A")` is `none` under the
configuration `["this._translate", "_translate"]`. -/
theorem extractKeyFromFullText_first_prefix_wins :
    (∀ (matchStrings : List String) (s : String), s ≠ "" →
        extractKeyFromFullText matchStrings s = specExtractKey matchStrings s) ∧
    extractKeyFromFullText ["this._translate", "_translate"] "_translate.A.B" =
      some "A.B" ∧
    extractKeyFromFullText ["this._translate", "_translate"] "this._translate" =
      some "" ∧
    extractKeyFromFullText ["this._translate", "_translate"] "unrelated.A" = none := by
  refine ⟨?_, by decide, by decide, by decide⟩
  intro matchStrings s hs
  rw [extractKeyFromFullText, if_neg hs]
  by_cases hgate : regexTestFromVariables matchStrings s = true
  · rw [if_pos hgate]
    exact extractLoop_eq_specExtractKey matchStrings s
  · rw [if_neg (by simpa using hgate)]
    cases hfind : matchStrings.find? (fun p =>
        s == p || isPrefixL (chars (p ++ ".")) (chars s)) with
    | none => simp [specExtractKey, hfind]
    | some p =>
      exfalso
      apply hgate
      have hmem : p ∈ matchStrings := List.mem_of_find?_eq_some hfind
      have hp : (s == p || isPrefixL (chars (p ++ ".")) (chars s)) = true := by
        have := List.find?_some hfind
        simpa using this
      have : matchStrings.any (fun v => containsL (chars v) (chars s)) = true :=
        List.any_eq_true.mpr ⟨p, hmem, containsL_of_loopHit p s hp⟩
      simp [regexTestFromVariables, this]

/-- Witness for `extractKeyFromFullText_first_prefix_wins` at a concrete
input. -/
theorem extractKeyFromFullText_first_prefix_wins_witness :
    extractKeyFromFullText ["_translate"] "_translate.A" =
      specExtractKey ["_translate"] "_translate.A" :=
  extractKeyFromFullText_first_prefix_wins.1 ["_translate"] "_translate.A" (by decide)

/-- The allowed span alphabet `[a-zA-Z0-9_.]` of `getFullTextAtPosition`. -/
def isAllowedChar (c : Char) : Bool :=
  ('a' ≤ c && c ≤ 'z') || ('A' ≤ c && c ≤ 'Z') || ('0' ≤ c && c ≤ '9') ||
    c = '_' || c = '.'

/-- Model of `isAllowed(lineText.charAt(i))`: out-of-range `charAt` yields the empty
string, which the one-character regex rejects. -/
def isAllowedAt (l : List Char) (i : Nat) : Bool :=
  match l.get? i with
  | some c => isAllowedChar c
  | none => false

/-- The left scan `while (start > 0 && isAllowed(lineText.charAt(start - 1)))
start--;` — note it inspects the character *before* `start`, never the one at
`start` itself. -/
def scanLeft (l : List Char) : Nat → Nat
  | 0 => 0
  | s + 1 => if isAllowedAt l s then scanLeft l s else s + 1

/-- The right scan `while (end < lineText.length && isAllowed(charAt(end)))
end++;`, expressed on the suffix starting at `end`. -/
def scanRightAux : List Char → Nat → Nat
  | [], e => e
  | c :: rest, e => if isAllowedChar c then scanRightAux rest (e + 1) else e

/-- Model of `getFullTextAtPosition` from `src/extension.ts`: guard the empty line,
step one character left of the cursor unconditionally, extend left while the
preceding character is allowed, extend right while the current character is
allowed, and return the substring (or `null` when it is empty). -/
def getFullTextAtPosition (lineText : String) (character : Nat) : Option String :=
  if lineText = "" then none
  else
    let l := chars lineText
    let s0 := if character > 0 then character - 1 else character
    let start := scanLeft l s0
    let stop := scanRightAux (l.drop character) character
    if start = stop then none
    else some (ofChars ((l.drop start).take (stop - start)))

/-- Claim C4, the code evaluated at the failing input.  On the line `"(ab"`
with the cursor at offset 1 (directly on `a`), the code returns the span
`"(ab"`, which contains the disallowed character `(` — the unconditional
`start--` before the left scan includes the character left of the cursor
without checking the alphabet.  The claim (and the function's own comment)
requires the maximal run of `[A-Za-z0-9_.]` characters, i.e. `"ab"`. -/
theorem getFullTextAtPosition_disallowed_char_bug :
    getFullTextAtPosition "(ab" 1 = some "(ab" ∧ isAllowedChar '(' = false :=
  ⟨rfl, rfl⟩

/-- A quote character: `'` (code 39) or `"` (code 34). -/
def isQuoteChar (c : Char) : Bool := c = Char.ofNat 39 || c = Char.ofNat 34

/-- Model of `fullText.replace(/^['"]|['"]$/g, "")`: the global regex removes a
leading quote if one is present and a trailing quote if one is present —
each end independently of the other. -/
def trimQuotes (s : String) : String :=
  let l := chars s
  let l1 :=
    match l with
    | c :: rest => if isQuoteChar c then rest else c :: rest
    | [] => []
  let l2 :=
    match l1.getLast? with
    | some c => if isQuoteChar c then l1.dropLast else l1
    | none => l1
  ofChars l2

/-- Inner loop of `getBestKeyFromFullText`: does the candidate's lookup
succeed in any cached JSON document, in `Object.values` enumeration order? -/
def existsInTrees (allJson : List (String × Json)) (candidate : String) : Bool :=
  match allJson with
  | [] => false
  | (_, t) :: rest =>
    if (getValueByKey t candidate).isSome then true else existsInTrees rest candidate

/-- Outer loop of `getBestKeyFromFullText`: return the first candidate that
exists in some tree. -/
def searchCands (candidates : List String) (allJson : List (String × Json)) :
    Option String :=
  match candidates with
  | [] => none
  | c :: rest => if existsInTrees allJson c then some c else searchCands rest allJson

/-- JS `Array.prototype.includes` on string lists. -/
def includesStr (xs : List String) (x : String) : Bool :=
  match xs with
  | [] => false
  | y :: rest => if y = x then true else includesStr rest x

/-- The candidate list built by `getBestKeyFromFullText`: push the
prefix-stripped key only when it is truthy (non-`null` and non-empty), then
push the cleaned span itself unless already present. -/
def bestCandidates (matchStrings : List String) (cleaned : String) : List String :=
  let base :=
    match extractKeyFromFullText matchStrings cleaned with
    | some stripped => if stripped = "" then [] else [stripped]
    | none => []
  if includesStr base cleaned then base else base ++ [cleaned]

/-- Model of `getBestKeyFromFullText(fullText, allJson)` from `src/extension.ts`:
guard the empty span, trim quotes and guard the empty result, build the
candidate list, then return the first candidate found in any tree. -/
def getBestKeyFromFullText (matchStrings : List String)
    (allJson : List (String × Json)) (fullText : String) : Option String :=
  if fullText = "" then none
  else if trimQuotes fullText = "" then none
  else searchCands (bestCandidates matchStrings (trimQuotes fullText)) allJson

/-- The amended candidate list: candidate A is the prefix-stripped key only
when extraction succeeds with a non-empty key, candidate B is the
quote-trimmed span itself; duplicates removed preserving A-before-B order. -/
def specCandidates (matchStrings : List String) (cleaned : String) : List String :=
  match extractKeyFromFullText matchStrings cleaned with
  | some k => if k = "" then [cleaned] else if k = cleaned then [k] else [k, cleaned]
  | none => [cleaned]

/-- The claim's declarative search, over the amended candidate list: the
first candidate whose lookup is defined in at least one tree; `none` for an
empty span or empty trimmed span, and when no candidate exists anywhere. -/
def specBestKey (matchStrings : List String) (allJson : List (String × Json))
    (fullText : String) : Option String :=
  if fullText = "" then none
  else if trimQuotes fullText = "" then none
  else
    (specCandidates matchStrings (trimQuotes fullText)).find?
      (fun c => allJson.any (fun lt => (getValueByKey lt.2 c).isSome))

theorem existsInTrees_eq_any (allJson : List (String × Json)) (c : String) :
    existsInTrees allJson c = allJson.any (fun lt => (getValueByKey lt.2 c).isSome) := by
  induction allJson with
  | nil => rfl
  | cons lt rest ih =>
    obtain ⟨lab, t⟩ := lt
    simp only [existsInTrees, List.any_cons, ih]
    by_cases h : (getValueByKey t c).isSome = true <;> simp [h]

theorem searchCands_eq_find? (candidates : List String)
    (allJson : List (String × Json)) :
    searchCands candidates allJson =
      candidates.find? (fun c => allJson.any (fun lt => (getValueByKey lt.2 c).isSome)) := by
  induction candidates with
  | nil => rfl
  | cons c rest ih =>
    simp only [searchCands, existsInTrees_eq_any, List.find?]
    by_cases h : allJson.any (fun lt => (getValueByKey lt.2 c).isSome) = true
    · simp [h]
    · simp only [Bool.not_eq_true] at h
      simp [h, ih]

theorem searchCands_mem (candidates : List String)
    (allJson : List (String × Json)) (k : String)
    (h : searchCands candidates allJson = some k) : k ∈ candidates := by
  induction candidates with
  | nil => simp [searchCands] at h
  | cons c rest ih =>
    simp only [searchCands] at h
    by_cases hc : existsInTrees allJson c = true
    · rw [if_pos hc] at h
      simp_all
    · rw [if_neg hc] at h
      exact List.mem_cons_of_mem _ (ih h)

theorem bestCandidates_eq_specCandidates (matchStrings : List String)
    (cleaned : String) :
    bestCandidates matchStrings cleaned = specCandidates matchStrings cleaned := by
  unfold bestCandidates specCandidates
  cases hext : extractKeyFromFullText matchStrings cleaned with
  | none => simp [includesStr]
  | some k =>
    by_cases hk : k = ""
    · simp [hk, includesStr]
    · by_cases hkc : k = cleaned
      · subst hkc
        simp [hk, includesStr]
      · simp [hk, includesStr, hkc]

theorem mem_bestCandidates_ne_empty (matchStrings : List String)
    (cleaned c : String) (hcl : cleaned ≠ "")
    (hmem : c ∈ bestCandidates matchStrings cleaned) : c ≠ "" := by
  rw [bestCandidates_eq_specCandidates] at hmem
  cases hext : extractKeyFromFullText matchStrings cleaned with
  | none =>
    simp only [specCandidates, hext, List.mem_singleton] at hmem
    simpa [hmem] using hcl
  | some k =>
    simp only [specCandidates, hext] at hmem
    by_cases hk : k = ""
    · rw [if_pos hk] at hmem
      simp only [List.mem_singleton] at hmem
      simpa [hmem] using hcl
    · rw [if_neg hk] at hmem
      by_cases hkc : k = cleaned
      · rw [if_pos hkc] at hmem
        simp only [List.mem_singleton] at hmem
        simpa [hmem] using hk
      · rw [if_neg hkc] at hmem
        simp only [List.mem_cons, List.mem_singleton, List.not_mem_nil,
          or_false] at hmem
        rcases hmem with h | h
        · simpa [h] using hk
        · simpa [h] using hcl

/-- Claim C2, counterexample.  The claim forms candidate A whenever extraction
succeeds and returns the first candidate whose lookup is defined in some
tree.  On the span `"_translate"` extraction succeeds with the empty key, and
the empty key's lookup *is* defined in the tree `{"": "x"}` — yet the code
returns `none`, because the falsy empty candidate is discarded before the
search. -/
theorem getBestKeyFromFullText_empty_candidate_cex :
    extractKeyFromFullText ["_translate"] "_translate" = some "" ∧
    getValueByKey (Json.obj [("", Json.str "x")]) "" = some (Json.str "x") ∧
    getBestKeyFromFullText ["_translate"]
      [("en", Json.obj [("", Json.str "x")])] "_translate" = none :=
  ⟨rfl, rfl, rfl⟩

/-- Claim C2, amended.  The function `getBestKeyFromFullText` forms candidate A as the
prefix-stripped key when extraction succeeds *with a non-empty key*, candidate
B as the quote-trimmed span itself *when that is non-empty* (an empty span or
empty trimmed span yields `none` at once), deduplicates preserving A-before-B
order, and returns the first candidate, in that order, whose lookup is
defined in at least one tree of the document set (trees tried in enumeration
order), and `none` when no candidate exists in any tree. -/
theorem getBestKeyFromFullText_candidate_policy (matchStrings : List String)
    (allJson : List (String × Json)) (fullText : String) :
    getBestKeyFromFullText matchStrings allJson fullText =
      specBestKey matchStrings allJson fullText := by
  unfold getBestKeyFromFullText specBestKey
  by_cases h1 : fullText = ""
  · simp [h1]
  · rw [if_neg h1, if_neg h1]
    by_cases h2 : trimQuotes fullText = ""
    · rw [if_pos h2, if_pos h2]
    · rw [if_neg h2, if_neg h2, bestCandidates_eq_specCandidates,
        searchCands_eq_find?]

/-- Claim C10.  Best-key disambiguation never returns the empty key: every
candidate it searches is a non-empty string, because an empty prefix-stripped
candidate is discarded rather than tried, and the cleaned-span candidate is
guarded by the empty-span check — so a bare prefix span never resolves to the
root of any tree. -/
theorem getBestKeyFromFullText_never_empty_key (matchStrings : List String)
    (allJson : List (String × Json)) (fullText k : String)
    (h : getBestKeyFromFullText matchStrings allJson fullText = some k) :
    k ≠ "" := by
  unfold getBestKeyFromFullText at h
  by_cases h1 : fullText = ""
  · rw [if_pos h1] at h
    exact absurd h (by simp)
  · rw [if_neg h1] at h
    by_cases h2 : trimQuotes fullText = ""
    · rw [if_pos h2] at h
      exact absurd h (by simp)
    · rw [if_neg h2] at h
      exact mem_bestCandidates_ne_empty matchStrings (trimQuotes fullText) k h2
        (searchCands_mem _ _ _ h)

/-- Witness for `getBestKeyFromFullText_never_empty_key`: a resolving span
returns the non-empty key `"a"`. -/
theorem getBestKeyFromFullText_never_empty_key_witness : ("a" : String) ≠ "" :=
  getBestKeyFromFullText_never_empty_key ["_translate"]
    [("en", Json.obj [("a", Json.str "x")])] "_translate.a" "a" (by decide)

/-- Claim C5, counterexample.  The claim says a span quoted on only one end is
not trimmed.  On the code, the span consisting of a single quote followed by
`a` (only the left end quoted) still has its quote removed — the cleaned span
`"a"` then resolves in the tree `{"a": "x"}`, which would be impossible had
the span been left untrimmed. -/
theorem getBestKeyFromFullText_onesided_trim_cex :
    trimQuotes (ofChars [Char.ofNat 39, 'a']) = "a" ∧
    getBestKeyFromFullText ["_translate"] [("en", Json.obj [("a", Json.str "x")])]
      (ofChars [Char.ofNat 39, 'a']) = some "a" :=
  ⟨rfl, rfl⟩

/-- Claim C5, amended.  Before prefix matching, one layer of quote characters
(`'` or `"`) is trimmed from the span *independently at each end*: a leading
quote is removed if present and a trailing quote is removed if present, with
no requirement that both ends be quoted or that the two quote characters
match; a span with no quote at either end is unchanged. -/
theorem trimQuotes_each_end_independent :
    (∀ (a b : Char) (m : List Char), isQuoteChar a = true → isQuoteChar b = false →
        trimQuotes (ofChars (a :: m ++ [b])) = ofChars (m ++ [b])) ∧
    (∀ (a b : Char) (m : List Char), isQuoteChar a = false → isQuoteChar b = true →
        trimQuotes (ofChars (a :: m ++ [b])) = ofChars (a :: m)) ∧
    (∀ (a b : Char) (m : List Char), isQuoteChar a = true → isQuoteChar b = true →
        trimQuotes (ofChars (a :: m ++ [b])) = ofChars m) ∧
    (∀ (a b : Char) (m : List Char), isQuoteChar a = false → isQuoteChar b = false →
        trimQuotes (ofChars (a :: m ++ [b])) = ofChars (a :: m ++ [b])) ∧
    (∀ a : Char, isQuoteChar a = true → trimQuotes (ofChars [a]) = "") := by
  have hlast : ∀ (a b : Char) (m : List Char),
      (a :: (m ++ [b])).getLast? = some b := by
    intro a b m
    rw [← List.cons_append, List.getLast?_concat]
  have hdrop : ∀ (a b : Char) (m : List Char),
      (a :: (m ++ [b])).dropLast = a :: m := by
    intro a b m
    rw [← List.cons_append, List.dropLast_concat]
  refine ⟨?_, ?_, ?_, ?_, ?_⟩
  · intro a b m ha hb
    simp [trimQuotes, chars_ofChars, ha, hb, List.getLast?_concat,
      List.dropLast_concat]
  · intro a b m ha hb
    simp [trimQuotes, chars_ofChars, ha, hb, hlast, hdrop]
  · intro a b m ha hb
    simp [trimQuotes, chars_ofChars, ha, hb, List.getLast?_concat,
      List.dropLast_concat]
  · intro a b m ha hb
    simp [trimQuotes, chars_ofChars, ha, hb, hlast]
  · intro a ha
    simp [trimQuotes, chars_ofChars, ha]
    rfl

/-- Witness for `trimQuotes_each_end_independent`: each conjunct applied at a
concrete input (39 is `'`, 34 is `"`). -/
theorem trimQuotes_each_end_independent_witness :
    trimQuotes (ofChars [Char.ofNat 39, 'x', 'y']) = ofChars ['x', 'y'] ∧
    trimQuotes (ofChars ['x', Char.ofNat 34]) = ofChars ['x'] ∧
    trimQuotes (ofChars [Char.ofNat 39, 'x', Char.ofNat 34]) = ofChars ['x'] ∧
    trimQuotes (ofChars ['x', 'y']) = ofChars ['x', 'y'] ∧
    trimQuotes (ofChars [Char.ofNat 39]) = "" :=
  ⟨trimQuotes_each_end_independent.1 (Char.ofNat 39) 'y' ['x'] (by decide) (by decide),
   trimQuotes_each_end_independent.2.1 'x' (Char.ofNat 34) [] (by decide) (by decide),
   trimQuotes_each_end_independent.2.2.1 (Char.ofNat 39) (Char.ofNat 34) ['x']
     (by decide) (by decide),
   trimQuotes_each_end_independent.2.2.2.1 'x' 'y' [] (by decide) (by decide),
   trimQuotes_each_end_independent.2.2.2.2 (Char.ofNat 39) (by decide)⟩

/-- The document set of the C6 example: `{"en": {"CONTROLL": {"buy": "Buy"}}}`. -/
def c6Trees : List (String × Json) :=
  [("en", Json.obj [("CONTROLL", Json.obj [("buy", Json.str "Buy")])])]

/-- The exact span quoted by the claim: `'CONTROLL.buy' | translate`
(39 is the quote character `'`). -/
def c6SpanFull : String :=
  ofChars ([Char.ofNat 39] ++ chars "CONTROLL.buy" ++ [Char.ofNat 39] ++
    chars " | translate")

/-- The quoted key span alone: `'CONTROLL.buy'`. -/
def c6SpanQuoted : String :=
  ofChars ([Char.ofNat 39] ++ chars "CONTROLL.buy" ++ [Char.ofNat 39])

/-- Claim C6, counterexample.  Applied to the literal span
`'CONTROLL.buy' | translate` the code returns `none`, not `CONTROLL.buy`:
only the leading quote is trimmed (the last character is `e`), prefix
extraction fails on the cleaned text, and the literal candidate
`CONTROLL.buy' | translate` does not exist in the tree. -/
theorem resolveBestKey_pipe_span_cex :
    getBestKeyFromFullText defaultMatchStrings c6Trees c6SpanFull = none := rfl

/-- Claim C6, amended.  Given the document set
`{"en": {"CONTROLL": {"buy": "Buy"}}}`, `getBestKeyFromFullText` applied to
the quoted key span `'CONTROLL.buy'` returns `CONTROLL.buy` via the
literal-span fallback, even though no configured prefix matches the cleaned
span; the surrounding `| translate` pipe text of the spec's example must not
be part of the span, or resolution fails. -/
theorem resolveBestKey_literal_fallback :
    extractKeyFromFullText defaultMatchStrings "CONTROLL.buy" = none ∧
    getBestKeyFromFullText defaultMatchStrings c6Trees c6SpanQuoted =
      some "CONTROLL.buy" :=
  ⟨rfl, rfl⟩

/-- Decimal digit character. -/
def digitChar (n : Nat) : Char := Char.ofNat (48 + n)

/-- Reversed decimal digits of `n`, fuelled by the first argument. -/
def natDigitsRev : Nat → Nat → List Char
  | 0, _ => []
  | fuel + 1, n =>
    if n < 10 then [digitChar n] else digitChar (n % 10) :: natDigitsRev fuel (n / 10)

/-- Decimal rendering of a natural number (JS array index property names). -/
def natToStr (n : Nat) : String := ofChars (natDigitsRev (n + 1) n).reverse

/-- Model of `typeof node === "object" && node !== null`, then `Object.keys(node)`:
objects enumerate their entry names in insertion order, arrays their index
strings; leaves and `null` fail the check. -/
def childKeys : Json → Option (List String)
  | Json.obj entries => some (entries.map Prod.fst)
  | Json.arr xs => some ((List.range xs.length).map natToStr)
  | _ => none

/-- Does the suggestion map already hold this child key (`keySet.has`)? -/
def hasKey (m : List (String × String)) (k : String) : Bool :=
  match m with
  | [] => false
  | (k', _) :: rest => if k' = k then true else hasKey rest k

/-- Append a documentation line to the suggestion for `k`
(`item.documentation = prevDoc + line`). -/
def appendDocLine (m : List (String × String)) (k line : String) :
    List (String × String) :=
  m.map (fun e => if e.1 = k then (e.1, e.2 ++ line) else e)

/-- One markdown documentation line `- **lang**: value`. -/
def docLine (lang v : String) : String := "- **" ++ lang ++ "**: " ++ v ++ "\n"

/-- The inner `for (const childKey of Object.keys(node))` loop of the
completion provider: create the suggestion on first sight (first-seen order),
then append a documentation line when the child's full key resolves to a
truthy string (i.e. a non-empty string leaf). -/
def processChildren (lang : String) (jsonData : Json) (keyPref : String)
    (fullKeyIsRoot : Bool) :
    List String → List (String × String) → List (String × String)
  | [], m => m
  | childKey :: rest, m =>
    let m1 := if hasKey m childKey then m else m ++ [(childKey, "")]
    let fullKey := if fullKeyIsRoot then childKey else keyPref ++ "." ++ childKey
    let m2 :=
      match getValueByKey jsonData fullKey with
      | some (Json.str v) =>
        if v = "" then m1 else appendDocLine m1 childKey (docLine lang v)
      | _ => m1
    processChildren lang jsonData keyPref fullKeyIsRoot rest m2

/-- The outer `for (const [lang, jsonData] of Object.entries(allJson))` loop:
resolve the node for the key prefix (the whole tree when the prefix is the
empty string) and enumerate its children when it is a non-null object. -/
def processTrees (keyPref : String) (fullKeyIsRoot : Bool) :
    List (String × Json) → List (String × String) → List (String × String)
  | [], m => m
  | (lang, jsonData) :: rest, m =>
    let node := if fullKeyIsRoot then some jsonData else getValueByKey jsonData keyPref
    let m1 :=
      match node with
      | some nd =>
        match childKeys nd with
        | some ks => processChildren lang jsonData keyPref fullKeyIsRoot ks m
        | none => m
      | none => m
    processTrees keyPref fullKeyIsRoot rest m1

/-- Model of `provideCompletionItems` from `src/extension.ts` (suggestions as
`(childKey, documentation)` pairs in emission order): step one character left
of the trigger position, extract the span, extract the key prefix, and run
the suggestion loops. -/
def provideCompletionItems (matchStrings : List String)
    (allJson : List (String × Json)) (lineText : String) (character : Nat) :
    List (String × String) :=
  let posForWord := if character > 0 then character - 1 else character
  match getFullTextAtPosition lineText posForWord with
  | none => []
  | some fullMatch =>
    if fullMatch = "" then []
    else
      match extractKeyFromFullText matchStrings fullMatch with
      | none => []
      | some keyPref => processTrees keyPref (keyPref = "") allJson []

/-- The document set of the C7 example. -/
def c7Trees : List (String × Json) :=
  [("en", Json.obj [("CONTROLL",
      Json.obj [("buy", Json.str "Buy"), ("sell", Json.str "Sell")])]),
   ("vi", Json.obj [("CONTROLL", Json.obj [("buy", Json.str "Mua")])])]

/-- Claim C7, the code evaluated at the failing input.  On the line
`_translate.CONTROLL.` with the cursor after the freshly typed trigger dot,
the extracted span keeps the trailing dot, so the key prefix becomes
`CONTROLL.` whose lookup (trailing empty segment) is `undefined` in every
tree: the provider returns *no* suggestions instead of the claimed `buy` and
`sell`.  Only the bare-prefix line `_translate.` works, via the special
empty-prefix root case.  The suggestion loop itself, run on the dot-free
prefix `CONTROLL`, does produce the claimed deduplicated suggestions with
per-label documentation lines for non-empty string leaves. -/
theorem completion_trailing_dot_bug :
    provideCompletionItems defaultMatchStrings c7Trees "_translate.CONTROLL." 20 = [] ∧
    extractKeyFromFullText defaultMatchStrings "_translate.CONTROLL." =
      some "CONTROLL." ∧
    getValueByKey (Json.obj [("CONTROLL",
      Json.obj [("buy", Json.str "Buy"), ("sell", Json.str "Sell")])]) "CONTROLL." =
      none ∧
    provideCompletionItems defaultMatchStrings c7Trees "_translate." 11 =
      [("CONTROLL", "")] ∧
    processTrees "CONTROLL" false c7Trees [] =
      [("buy", docLine "en" "Buy" ++ docLine "vi" "Mua"),
       ("sell", docLine "en" "Sell")] :=
  ⟨rfl, rfl, rfl, rfl, rfl⟩

/-- JS object assignment `cache[key] = v`: update in place (preserving key
order) or append. -/
def setEntry {α : Type} : List (String × α) → String → α → List (String × α)
  | [], k, v => [(k, v)]
  | (k', v') :: rest, k, v =>
    if k' = k then (k, v) :: rest else (k', v') :: setEntry rest k v

/-- JS `delete cache[key]`: remove the (unique) entry with that key. -/
def delEntry {α : Type} : List (String × α) → String → List (String × α)
  | [], _ => []
  | (k', v) :: rest, k => if k' = k then rest else (k', v) :: delEntry rest k

/-- The outcome of `JSON.parse(fs.readFileSync(fullPath))`, as seen by
`loadFile`: the parsed tree on success, the empty tree `{}` written by the
`catch` handler on a read or parse failure. -/
def loadJson (readResult : Except String Json) : Json :=
  match readResult with
  | .ok tree => tree
  | .error _ => Json.obj []

/-- Model of `loadFile` in `handleJsonCacheAndWatcher`:
`try { jsonCache[label] = JSON.parse(fs.readFileSync(fullPath)) }
catch (e) { console.error(...); jsonCache[label] = {} }`. -/
def loadFile (jsonCache : List (String × Json)) (label : String)
    (readResult : Except String Json) : List (String × Json) :=
  setEntry jsonCache label (loadJson readResult)

/-- A lookup as the providers perform it: fetch the label's cached tree and
run `getValueByKey` on it. -/
def cacheLookup (jsonCache : List (String × Json)) (label key : String) :
    Option Json :=
  (lookupEntries jsonCache label).bind (fun t => getValueByKey t key)

theorem getValueByKey_emptyObj (key : String) :
    getValueByKey (Json.obj []) key = none := by
  unfold getValueByKey
  cases h : jsSplitDot key with
  | nil => exact absurd h (jsSplitDot_ne_nil key)
  | cons s rest =>
    have : jsIndex (Json.obj []) s = none := rfl
    simp [this, foldl_bind_none rest]

theorem lookupEntries_setEntry_self {α : Type} (c : List (String × α)) (k : String)
    (v : α) : lookupEntries (setEntry c k v) k = some v := by
  induction c with
  | nil => simp [setEntry, lookupEntries]
  | cons e rest ih =>
    obtain ⟨k', v'⟩ := e
    by_cases h : k' = k
    · simp [setEntry, h, lookupEntries]
    · simp [setEntry, h, lookupEntries, ih]

theorem lookupEntries_setEntry_ne {α : Type} (c : List (String × α))
    (k k' : String) (v : α) (h : k' ≠ k) :
    lookupEntries (setEntry c k v) k' = lookupEntries c k' := by
  induction c with
  | nil => simp [setEntry, lookupEntries, Ne.symm h]
  | cons e rest ih =>
    obtain ⟨k0, v0⟩ := e
    by_cases h0 : k0 = k
    · subst h0
      simp [setEntry, lookupEntries, Ne.symm h]
    · simp only [setEntry, if_neg h0, lookupEntries]
      by_cases h1 : k0 = k'
      · simp [h1]
      · simp [h1, ih]

/-- Claim C8.  When a label read or parse fails, `loadFile` replaces that
label's tree by the empty tree, so every subsequent lookup for that label
returns no value for any key, while the cached entry — and hence every
lookup — of every other label is unchanged. -/
theorem loadFile_failure_isolated (jsonCache : List (String × Json))
    (label msg : String) :
    lookupEntries (loadFile jsonCache label (Except.error msg)) label =
      some (Json.obj []) ∧
    (∀ key, cacheLookup (loadFile jsonCache label (Except.error msg)) label key =
      none) ∧
    (∀ l' key, l' ≠ label →
        cacheLookup (loadFile jsonCache label (Except.error msg)) l' key =
          cacheLookup jsonCache l' key) := by
  refine ⟨lookupEntries_setEntry_self jsonCache label (Json.obj []), ?_, ?_⟩
  · intro key
    unfold cacheLookup loadFile loadJson
    rw [lookupEntries_setEntry_self]
    simpa using getValueByKey_emptyObj key
  · intro l' key h
    unfold cacheLookup loadFile
    rw [lookupEntries_setEntry_ne jsonCache label l' _ h]

/-- Witness for `loadFile_failure_isolated`: after a failed reload of `vi`,
its lookups are gone while `en` still resolves. -/
theorem loadFile_failure_isolated_witness :
    cacheLookup (loadFile [("en", Json.obj [("a", Json.str "Hello")])] "vi"
      (Except.error "parse")) "vi" "a" = none ∧
    cacheLookup (loadFile [("en", Json.obj [("a", Json.str "Hello")])] "vi"
      (Except.error "parse")) "en" "a" =
      cacheLookup [("en", Json.obj [("a", Json.str "Hello")])] "en" "a" :=
  ⟨(loadFile_failure_isolated [("en", Json.obj [("a", Json.str "Hello")])]
      "vi" "parse").2.1 "a",
   (loadFile_failure_isolated [("en", Json.obj [("a", Json.str "Hello")])]
      "vi" "parse").2.2 "en" "a" (by decide)⟩

/-- Model of `path.basename(fullPath, ".json")`: the last path component, with a
trailing `".json"` removed when it is a proper suffix.  Configured paths are
taken as already-resolved path identifiers. -/
def labelOf (p : String) : String :=
  let base := ((chars p).reverse.takeWhile (fun c => c != '/')).reverse
  if isPrefixL (chars ".json").reverse base.reverse &&
      !(base == chars ".json") then
    ofChars (base.take (base.length - 5))
  else ofChars base

/-- The module-level mutable state of the document store:
`jsonCache` (label → tree), `jsonWatchers` (watched full paths) and
`jsonPathLabels` (full path → label). -/
structure StoreState where
  jsonCache : List (String × Json)
  jsonWatchers : List String
  jsonPathLabels : List (String × String)

/-- The state at module load: all three maps empty. -/
def initialStore : StoreState := ⟨[], [], []⟩

/-- The first loop of `handleJsonCacheAndWatcher`: for each configured path,
derive its label, run `loadFile()` immediately, and create a watcher if the
path has none yet.  `env` gives the read/parse outcome of each path. -/
def loadPhase (env : String → Except String Json) :
    List String → List String → List (String × Json) →
      List String × List (String × Json)
  | [], ws, cache => (ws, cache)
  | p :: rest, ws, cache =>
    let label := labelOf p
    let cache1 := loadFile cache label (env p)
    let ws1 := if includesStr ws p then ws else ws ++ [p]
    loadPhase env rest ws1 cache1

/-- Removal of one element from the watcher key list (JS `delete`). -/
def eraseStr : List String → String → List String
  | [], _ => []
  | y :: rest, x => if y = x then rest else y :: eraseStr rest x

/-- The cleanup loop of `handleJsonCacheAndWatcher`: iterate a snapshot of
the watcher keys; for each path no longer configured, dispose its watcher,
drop it from `jsonWatchers`, and — when the *previous* path-label map yields
a truthy label for it — delete that label's cache entry. -/
def cleanupPhase (newFullPaths : List String)
    (oldLabels : List (String × String)) :
    List String → List String × List (String × Json) →
      List String × List (String × Json)
  | [], st => st
  | p :: rest, (ws, cache) =>
    if includesStr newFullPaths p then
      cleanupPhase newFullPaths oldLabels rest (ws, cache)
    else
      let ws1 := eraseStr ws p
      let cache1 :=
        match lookupEntries oldLabels p with
        | some label => if label = "" then cache else delEntry cache label
        | none => cache
      cleanupPhase newFullPaths oldLabels rest (ws1, cache1)

/-- The `newLabels` object built by the first loop:
`newLabels[fullPath] = label`. -/
def buildLabels (configPaths : List String) : List (String × String) :=
  configPaths.foldl (fun m p => setEntry m p (labelOf p)) []

/-- Model of `handleJsonCacheAndWatcher(configPaths, context)` from
`src/extension.ts`: load every configured path and ensure its watcher, then
clean up watchers and cache entries for paths that left the configuration,
and finally replace `jsonPathLabels` wholesale. -/
def handleJsonCacheAndWatcher (env : String → Except String Json)
    (configPaths : List String) (s : StoreState) : StoreState :=
  let lp := loadPhase env configPaths s.jsonWatchers s.jsonCache
  let cp := cleanupPhase configPaths s.jsonPathLabels lp.1 (lp.1, lp.2)
  { jsonCache := cp.2, jsonWatchers := cp.1,
    jsonPathLabels := buildLabels configPaths }

/-- Store states reachable through configuration updates from the initial
state, for a fixed file-system environment; every applied configuration has
truthy (non-empty) labels, as any sensible path list does. -/
inductive Reachable (env : String → Except String Json) :
    List String → StoreState → Prop
  | base : Reachable env [] initialStore
  | step {P : List String} {s : StoreState} (P' : List String)
      (hlab : ∀ r ∈ P', labelOf r ≠ "")
      (h : Reachable env P s) :
      Reachable env P' (handleJsonCacheAndWatcher env P' s)

/-- Well-formed association list: pairwise-distinct keys (JS objects hold at
most one value per key). -/
def WFa {α : Type} (c : List (String × α)) : Prop := (c.map Prod.fst).Nodup

/-- The store invariant tied to the currently configured paths `P`. -/
def StoreInv (P : List String) (s : StoreState) : Prop :=
  s.jsonPathLabels = buildLabels P ∧
  s.jsonWatchers.Nodup ∧
  (∀ p, p ∈ s.jsonWatchers ↔ p ∈ P) ∧
  WFa s.jsonCache ∧
  (∀ l v, lookupEntries s.jsonCache l = some v → l ≠ "" ∧ ∃ r ∈ P, labelOf r = l)

theorem includesStr_iff (xs : List String) (x : String) :
    includesStr xs x = true ↔ x ∈ xs := by
  induction xs with
  | nil => simp [includesStr]
  | cons y rest ih =>
    by_cases h : y = x
    · simp [includesStr, h]
    · have h' : ¬ x = y := fun hh => h hh.symm
      simp [includesStr, h, h', ih]

theorem mem_of_mem_eraseStr (l : List String) (x y : String)
    (h : x ∈ eraseStr l y) : x ∈ l := by
  induction l with
  | nil => simp [eraseStr] at h
  | cons z rest ih =>
    by_cases hz : z = y
    · rw [eraseStr, if_pos hz] at h
      exact List.mem_cons_of_mem _ h
    · rw [eraseStr, if_neg hz] at h
      rcases List.mem_cons.mp h with h1 | h1
      · exact h1 ▸ List.mem_cons_self _ _
      · exact List.mem_cons_of_mem _ (ih h1)

theorem mem_eraseStr_of_ne (l : List String) (x y : String)
    (hx : x ∈ l) (hne : x ≠ y) : x ∈ eraseStr l y := by
  induction l with
  | nil => simp at hx
  | cons z rest ih =>
    by_cases hz : z = y
    · rw [eraseStr, if_pos hz]
      rcases List.mem_cons.mp hx with h1 | h1
      · exact absurd (h1.trans hz) hne
      · exact h1
    · rw [eraseStr, if_neg hz]
      rcases List.mem_cons.mp hx with h1 | h1
      · exact h1 ▸ List.mem_cons_self _ _
      · exact List.mem_cons_of_mem _ (ih h1)

theorem not_mem_eraseStr_self (l : List String) (x : String) (hnd : l.Nodup) :
    x ∉ eraseStr l x := by
  induction l with
  | nil => simp [eraseStr]
  | cons z rest ih =>
    rcases List.nodup_cons.mp hnd with ⟨hz, hrest⟩
    by_cases h : z = x
    · rw [eraseStr, if_pos h]
      subst h
      exact hz
    · rw [eraseStr, if_neg h]
      intro hmem
      rcases List.mem_cons.mp hmem with h1 | h1
      · exact h h1.symm
      · exact ih hrest h1

theorem nodup_eraseStr (l : List String) (y : String) (hnd : l.Nodup) :
    (eraseStr l y).Nodup := by
  induction l with
  | nil => simp [eraseStr]
  | cons z rest ih =>
    rcases List.nodup_cons.mp hnd with ⟨hz, hrest⟩
    by_cases h : z = y
    · rw [eraseStr, if_pos h]
      exact hrest
    · rw [eraseStr, if_neg h]
      exact List.nodup_cons.mpr
        ⟨fun hm => hz (mem_of_mem_eraseStr rest z y hm), ih hrest⟩

theorem mem_fst_setEntry {α : Type} (c : List (String × α)) (k : String) (v : α)
    (x : String) (h : x ∈ (setEntry c k v).map Prod.fst) :
    x ∈ c.map Prod.fst ∨ x = k := by
  induction c with
  | nil => exact Or.inr (by simpa [setEntry] using h)
  | cons e rest ih =>
    obtain ⟨k0, v0⟩ := e
    by_cases h0 : k0 = k
    · rw [setEntry, if_pos h0] at h
      rcases List.mem_cons.mp h with h1 | h1
      · exact Or.inr h1
      · exact Or.inl (List.mem_cons_of_mem _ h1)
    · rw [setEntry, if_neg h0] at h
      rcases List.mem_cons.mp h with h1 | h1
      · exact Or.inl (h1 ▸ List.mem_cons_self _ _)
      · rcases ih h1 with h2 | h2
        · exact Or.inl (List.mem_cons_of_mem _ h2)
        · exact Or.inr h2

theorem WFa_setEntry {α : Type} (c : List (String × α)) (k : String) (v : α)
    (h : WFa c) : WFa (setEntry c k v) := by
  induction c with
  | nil => simp [WFa, setEntry]
  | cons e rest ih =>
    obtain ⟨k0, v0⟩ := e
    rcases List.nodup_cons.mp h with ⟨hk0, hrest⟩
    by_cases h0 : k0 = k
    · subst h0
      rw [setEntry, if_pos rfl]
      exact List.nodup_cons.mpr ⟨hk0, hrest⟩
    · rw [setEntry, if_neg h0]
      refine List.nodup_cons.mpr ⟨?_, ih hrest⟩
      intro hm
      rcases mem_fst_setEntry rest k v k0 hm with h1 | h1
      · exact hk0 h1
      · exact h0 h1

theorem mem_fst_delEntry {α : Type} (c : List (String × α)) (k x : String)
    (h : x ∈ (delEntry c k).map Prod.fst) : x ∈ c.map Prod.fst := by
  induction c with
  | nil => simp [delEntry] at h
  | cons e rest ih =>
    obtain ⟨k0, v0⟩ := e
    by_cases h0 : k0 = k
    · rw [delEntry, if_pos h0] at h
      exact List.mem_cons_of_mem _ h
    · rw [delEntry, if_neg h0] at h
      rcases List.mem_cons.mp h with h1 | h1
      · exact h1 ▸ List.mem_cons_self _ _
      · exact List.mem_cons_of_mem _ (ih h1)

theorem WFa_delEntry {α : Type} (c : List (String × α)) (k : String)
    (h : WFa c) : WFa (delEntry c k) := by
  induction c with
  | nil => simp [WFa, delEntry]
  | cons e rest ih =>
    obtain ⟨k0, v0⟩ := e
    rcases List.nodup_cons.mp h with ⟨hk0, hrest⟩
    by_cases h0 : k0 = k
    · rw [delEntry, if_pos h0]
      exact hrest
    · rw [delEntry, if_neg h0]
      exact List.nodup_cons.mpr
        ⟨fun hm => hk0 (mem_fst_delEntry rest k k0 hm), ih hrest⟩

theorem lookupEntries_eq_none_of_not_mem {α : Type} (c : List (String × α))
    (x : String) (h : x ∉ c.map Prod.fst) : lookupEntries c x = none := by
  induction c with
  | nil => rfl
  | cons e rest ih =>
    obtain ⟨k0, v0⟩ := e
    simp only [List.map_cons, List.mem_cons, not_or] at h
    rw [lookupEntries, if_neg (fun hh => h.1 hh.symm)]
    exact ih h.2

theorem lookupEntries_delEntry_self {α : Type} (c : List (String × α))
    (k : String) (h : WFa c) : lookupEntries (delEntry c k) k = none := by
  induction c with
  | nil => rfl
  | cons e rest ih =>
    obtain ⟨k0, v0⟩ := e
    rcases List.nodup_cons.mp h with ⟨hk0, hrest⟩
    by_cases h0 : k0 = k
    · rw [delEntry, if_pos h0]
      subst h0
      exact lookupEntries_eq_none_of_not_mem rest k0 hk0
    · rw [delEntry, if_neg h0, lookupEntries, if_neg h0]
      exact ih hrest

theorem lookupEntries_delEntry_ne {α : Type} (c : List (String × α))
    (k l : String) (h : l ≠ k) :
    lookupEntries (delEntry c k) l = lookupEntries c l := by
  induction c with
  | nil => rfl
  | cons e rest ih =>
    obtain ⟨k0, v0⟩ := e
    by_cases h0 : k0 = k
    · rw [delEntry, if_pos h0, lookupEntries,
        if_neg (fun hh : k0 = l => h (hh ▸ h0.symm ▸ rfl))]
    · rw [delEntry, if_neg h0, lookupEntries, lookupEntries]
      by_cases h1 : k0 = l
      · simp [h1]
      · simp [h1, ih]

theorem lookupEntries_delEntry_none {α : Type} (c : List (String × α))
    (k l : String) (h : lookupEntries c l = none) :
    lookupEntries (delEntry c k) l = none := by
  induction c with
  | nil => rfl
  | cons e rest ih =>
    obtain ⟨k0, v0⟩ := e
    rw [lookupEntries] at h
    by_cases h1 : k0 = l
    · rw [if_pos h1] at h
      exact absurd h (by simp)
    · rw [if_neg h1] at h
      by_cases h0 : k0 = k
      · rw [delEntry, if_pos h0]
        exact h
      · rw [delEntry, if_neg h0, lookupEntries, if_neg h1]
        exact ih h

theorem lookupEntries_delEntry_some {α : Type} (c : List (String × α))
    (k l : String) (v : α) (hwf : WFa c)
    (h : lookupEntries (delEntry c k) l = some v) :
    lookupEntries c l = some v := by
  by_cases hlk : l = k
  · subst hlk
    rw [lookupEntries_delEntry_self c l hwf] at h
    exact absurd h (by simp)
  · rw [lookupEntries_delEntry_ne c k l hlk] at h
    exact h

theorem loadPhase_cache_notin (env : String → Except String Json)
    (ps : List String) (ws : List String) (cache : List (String × Json))
    (l : String) (h : l ∉ ps.map labelOf) :
    lookupEntries (loadPhase env ps ws cache).2 l = lookupEntries cache l := by
  induction ps generalizing ws cache with
  | nil => rfl
  | cons p rest ih =>
    simp only [List.map_cons, List.mem_cons, not_or] at h
    simp only [loadPhase, loadFile]
    rw [ih _ _ h.2]
    exact lookupEntries_setEntry_ne cache (labelOf p) l _ h.1

theorem loadPhase_cache_mem (env : String → Except String Json)
    (ps : List String) (ws : List String) (cache : List (String × Json))
    (q : String) (hnd : (ps.map labelOf).Nodup) (hq : q ∈ ps) :
    lookupEntries (loadPhase env ps ws cache).2 (labelOf q) =
      some (loadJson (env q)) := by
  induction ps generalizing ws cache with
  | nil => simp at hq
  | cons p rest ih =>
    simp only [List.map_cons, List.nodup_cons] at hnd
    rcases List.mem_cons.mp hq with h1 | h1
    · subst h1
      simp only [loadPhase, loadFile]
      rw [loadPhase_cache_notin env rest _ _ _ hnd.1]
      exact lookupEntries_setEntry_self cache (labelOf q) (loadJson (env q))
    · simp only [loadPhase]
      exact ih _ _ hnd.2 h1

theorem loadPhase_cache_some (env : String → Except String Json)
    (ps : List String) (ws : List String) (cache : List (String × Json))
    (l : String) (v : Json)
    (h : lookupEntries (loadPhase env ps ws cache).2 l = some v) :
    l ∈ ps.map labelOf ∨ lookupEntries cache l = some v := by
  induction ps generalizing ws cache with
  | nil => exact Or.inr h
  | cons p rest ih =>
    simp only [loadPhase] at h
    rcases ih _ _ h with h1 | h1
    · exact Or.inl (List.mem_cons_of_mem _ h1)
    · by_cases hl : l = labelOf p
      · exact Or.inl (by simp [hl])
      · right
        rw [loadFile, lookupEntries_setEntry_ne _ _ _ _ hl] at h1
        exact h1

theorem loadPhase_ws_mem (env : String → Except String Json)
    (ps : List String) (ws : List String) (cache : List (String × Json))
    (x : String) :
    x ∈ (loadPhase env ps ws cache).1 ↔ x ∈ ws ∨ x ∈ ps := by
  induction ps generalizing ws cache with
  | nil => simp [loadPhase]
  | cons p rest ih =>
    simp only [loadPhase]
    rw [ih]
    by_cases h : includesStr ws p = true
    · have hp : p ∈ ws := (includesStr_iff ws p).mp h
      rw [if_pos h]
      constructor
      · rintro (h1 | h1)
        · exact Or.inl h1
        · exact Or.inr (List.mem_cons_of_mem _ h1)
      · rintro (h1 | h1)
        · exact Or.inl h1
        · rcases List.mem_cons.mp h1 with h2 | h2
          · exact Or.inl (h2 ▸ hp)
          · exact Or.inr h2
    · rw [if_neg h]
      simp only [List.mem_append, List.mem_singleton, List.mem_cons]
      tauto

theorem loadPhase_ws_nodup (env : String → Except String Json)
    (ps : List String) (ws : List String) (cache : List (String × Json))
    (h : ws.Nodup) : (loadPhase env ps ws cache).1.Nodup := by
  induction ps generalizing ws cache with
  | nil => exact h
  | cons p rest ih =>
    simp only [loadPhase]
    apply ih
    by_cases hc : includesStr ws p = true
    · rw [if_pos hc]
      exact h
    · rw [if_neg hc]
      rw [List.nodup_append]
      refine ⟨h, List.nodup_singleton p, ?_⟩
      intro a ha hpa
      rw [List.mem_singleton] at hpa
      subst hpa
      exact hc ((includesStr_iff ws a).mpr ha)

theorem loadPhase_cache_wf (env : String → Except String Json)
    (ps : List String) (ws : List String) (cache : List (String × Json))
    (h : WFa cache) : WFa (loadPhase env ps ws cache).2 := by
  induction ps generalizing ws cache with
  | nil => exact h
  | cons p rest ih =>
    simp only [loadPhase]
    exact ih _ _ (WFa_setEntry cache (labelOf p) (loadJson (env p)) h)

theorem cleanupPhase_cache_some (nP : List String)
    (oldL : List (String × String)) (snap ws : List String)
    (cache : List (String × Json)) (l : String) (v : Json) (hwf : WFa cache)
    (h : lookupEntries (cleanupPhase nP oldL snap (ws, cache)).2 l = some v) :
    lookupEntries cache l = some v := by
  induction snap generalizing ws cache with
  | nil => exact h
  | cons p rest ih =>
    simp only [cleanupPhase] at h
    by_cases hc : includesStr nP p = true
    · rw [if_pos hc] at h
      exact ih _ _ hwf h
    · rw [if_neg hc] at h
      cases hol : lookupEntries oldL p with
      | none =>
        simp only [hol] at h
        exact ih _ _ hwf h
      | some lab =>
        simp only [hol] at h
        by_cases hlab : lab = ""
        · rw [if_pos hlab] at h
          exact ih _ _ hwf h
        · rw [if_neg hlab] at h
          exact lookupEntries_delEntry_some cache lab l v hwf
            (ih _ _ (WFa_delEntry cache lab hwf) h)

theorem cleanupPhase_cache_none (nP : List String)
    (oldL : List (String × String)) (snap ws : List String)
    (cache : List (String × Json)) (l : String)
    (h : lookupEntries cache l = none) :
    lookupEntries (cleanupPhase nP oldL snap (ws, cache)).2 l = none := by
  induction snap generalizing ws cache with
  | nil => exact h
  | cons p rest ih =>
    simp only [cleanupPhase]
    by_cases hc : includesStr nP p = true
    · rw [if_pos hc]
      exact ih _ _ h
    · rw [if_neg hc]
      cases hol : lookupEntries oldL p with
      | none =>
        simp only [hol]
        exact ih _ _ h
      | some lab =>
        simp only [hol]
        by_cases hlab : lab = ""
        · rw [if_pos hlab]
          exact ih _ _ h
        · rw [if_neg hlab]
          exact ih _ _ (lookupEntries_delEntry_none cache lab l h)

theorem cleanupPhase_deletes (nP : List String)
    (oldL : List (String × String)) (snap ws : List String)
    (cache : List (String × Json)) (r l : String) (hwf : WFa cache)
    (hr : r ∈ snap) (hc : includesStr nP r = false)
    (hol : lookupEntries oldL r = some l) (hl0 : l ≠ "") :
    lookupEntries (cleanupPhase nP oldL snap (ws, cache)).2 l = none := by
  induction snap generalizing ws cache with
  | nil => simp at hr
  | cons p rest ih =>
    simp only [cleanupPhase]
    rcases List.mem_cons.mp hr with h1 | h1
    · subst h1
      rw [if_neg (by simp [hc])]
      simp only [hol]
      rw [if_neg hl0]
      exact cleanupPhase_cache_none nP oldL rest _ _ l
        (lookupEntries_delEntry_self cache l hwf)
    · by_cases hcp : includesStr nP p = true
      · rw [if_pos hcp]
        exact ih _ _ hwf h1
      · rw [if_neg hcp]
        cases holp : lookupEntries oldL p with
        | none =>
          simp only [holp]
          exact ih _ _ hwf h1
        | some lab =>
          simp only [holp]
          by_cases hlab : lab = ""
          · rw [if_pos hlab]
            exact ih _ _ hwf h1
          · rw [if_neg hlab]
            exact ih _ _ (WFa_delEntry cache lab hwf) h1

theorem cleanupPhase_cache_preserve (nP : List String)
    (oldL : List (String × String)) (snap ws : List String)
    (cache : List (String × Json)) (l : String)
    (hno : ∀ r ∈ snap, includesStr nP r = false →
        ∀ lab, lookupEntries oldL r = some lab → lab ≠ "" → lab ≠ l) :
    lookupEntries (cleanupPhase nP oldL snap (ws, cache)).2 l =
      lookupEntries cache l := by
  induction snap generalizing ws cache with
  | nil => rfl
  | cons p rest ih =>
    have hno' : ∀ r ∈ rest, includesStr nP r = false →
        ∀ lab, lookupEntries oldL r = some lab → lab ≠ "" → lab ≠ l :=
      fun r hr => hno r (List.mem_cons_of_mem _ hr)
    simp only [cleanupPhase]
    by_cases hc : includesStr nP p = true
    · rw [if_pos hc]
      exact ih _ _ hno'
    · rw [if_neg hc]
      cases holp : lookupEntries oldL p with
      | none =>
        simp only [holp]
        exact ih _ _ hno'
      | some lab =>
        simp only [holp]
        by_cases hlab : lab = ""
        · rw [if_pos hlab]
          exact ih _ _ hno'
        · rw [if_neg hlab]
          rw [ih _ _ hno']
          exact lookupEntries_delEntry_ne cache lab l
            (Ne.symm (hno p (List.mem_cons_self _ _) (by simpa using hc) lab
              holp hlab))

theorem cleanupPhase_ws_sub (nP : List String) (oldL : List (String × String))
    (snap ws : List String) (cache : List (String × Json)) (x : String)
    (h : x ∈ (cleanupPhase nP oldL snap (ws, cache)).1) : x ∈ ws := by
  induction snap generalizing ws cache with
  | nil => exact h
  | cons p rest ih =>
    simp only [cleanupPhase] at h
    by_cases hc : includesStr nP p = true
    · rw [if_pos hc] at h
      exact ih _ _ h
    · rw [if_neg hc] at h
      exact mem_of_mem_eraseStr ws x p (ih _ _ h)

theorem cleanupPhase_ws_keep (nP : List String) (oldL : List (String × String))
    (snap ws : List String) (cache : List (String × Json)) (x : String)
    (hx : x ∈ ws) (hc : includesStr nP x = true) :
    x ∈ (cleanupPhase nP oldL snap (ws, cache)).1 := by
  induction snap generalizing ws cache with
  | nil => exact hx
  | cons p rest ih =>
    simp only [cleanupPhase]
    by_cases hcp : includesStr nP p = true
    · rw [if_pos hcp]
      exact ih _ _ hx
    · rw [if_neg hcp]
      have hxp : x ≠ p := fun hh => hcp (hh ▸ hc)
      exact ih _ _ (mem_eraseStr_of_ne ws x p hx hxp)

theorem cleanupPhase_ws_nodup (nP : List String) (oldL : List (String × String))
    (snap ws : List String) (cache : List (String × Json)) (hnd : ws.Nodup) :
    (cleanupPhase nP oldL snap (ws, cache)).1.Nodup := by
  induction snap generalizing ws cache with
  | nil => exact hnd
  | cons p rest ih =>
    simp only [cleanupPhase]
    by_cases hc : includesStr nP p = true
    · rw [if_pos hc]
      exact ih _ _ hnd
    · rw [if_neg hc]
      exact ih _ _ (nodup_eraseStr ws p hnd)

theorem cleanupPhase_ws_removed (nP : List String)
    (oldL : List (String × String)) (snap ws : List String)
    (cache : List (String × Json)) (x : String) (hnd : ws.Nodup)
    (hx : x ∈ snap) (hc : includesStr nP x = false) :
    x ∉ (cleanupPhase nP oldL snap (ws, cache)).1 := by
  induction snap generalizing ws cache with
  | nil => simp at hx
  | cons p rest ih =>
    simp only [cleanupPhase]
    rcases List.mem_cons.mp hx with h1 | h1
    · subst h1
      rw [if_neg (by simp [hc])]
      intro hmem
      exact not_mem_eraseStr_self ws x hnd
        (cleanupPhase_ws_sub nP oldL rest _ _ x hmem)
    · by_cases hcp : includesStr nP p = true
      · rw [if_pos hcp]
        exact ih _ _ hnd h1
      · rw [if_neg hcp]
        exact ih _ _ (nodup_eraseStr ws p hnd) h1

theorem buildLabelsAux (P : List String) (acc : List (String × String))
    (x : String) :
    lookupEntries (P.foldl (fun m p => setEntry m p (labelOf p)) acc) x =
      if x ∈ P then some (labelOf x) else lookupEntries acc x := by
  induction P generalizing acc with
  | nil => simp
  | cons p rest ih =>
    simp only [List.foldl_cons]
    rw [ih]
    by_cases hx : x ∈ rest
    · rw [if_pos hx, if_pos (List.mem_cons_of_mem _ hx)]
    · rw [if_neg hx]
      by_cases hxp : x = p
      · subst hxp
        rw [if_pos (List.mem_cons_self _ _), lookupEntries_setEntry_self]
      · rw [if_neg (by simp [hxp, hx]), lookupEntries_setEntry_ne _ _ _ _ hxp]

theorem lookupEntries_buildLabels (P : List String) (x : String) :
    lookupEntries (buildLabels P) x =
      if x ∈ P then some (labelOf x) else none := by
  rw [buildLabels, buildLabelsAux]
  rfl

theorem cleanupPhase_cache_wf (nP : List String)
    (oldL : List (String × String)) (snap ws : List String)
    (cache : List (String × Json)) (hwf : WFa cache) :
    WFa (cleanupPhase nP oldL snap (ws, cache)).2 := by
  induction snap generalizing ws cache with
  | nil => exact hwf
  | cons p rest ih =>
    simp only [cleanupPhase]
    by_cases hc : includesStr nP p = true
    · rw [if_pos hc]
      exact ih _ _ hwf
    · rw [if_neg hc]
      cases holp : lookupEntries oldL p with
      | none =>
        simp only [holp]
        exact ih _ _ hwf
      | some lab =>
        simp only [holp]
        by_cases hlab : lab = ""
        · rw [if_pos hlab]
          exact ih _ _ hwf
        · rw [if_neg hlab]
          exact ih _ _ (WFa_delEntry cache lab hwf)

theorem includesStr_eq_false (xs : List String) (x : String) (h : x ∉ xs) :
    includesStr xs x = false := by
  cases hb : includesStr xs x
  · rfl
  · exact absurd ((includesStr_iff xs x).mp hb) h

theorem handle_cache_eq (env : String → Except String Json) (P' : List String)
    (s : StoreState) :
    (handleJsonCacheAndWatcher env P' s).jsonCache =
      (cleanupPhase P' s.jsonPathLabels
        (loadPhase env P' s.jsonWatchers s.jsonCache).1
        ((loadPhase env P' s.jsonWatchers s.jsonCache).1,
         (loadPhase env P' s.jsonWatchers s.jsonCache).2)).2 := rfl

theorem handle_ws_eq (env : String → Except String Json) (P' : List String)
    (s : StoreState) :
    (handleJsonCacheAndWatcher env P' s).jsonWatchers =
      (cleanupPhase P' s.jsonPathLabels
        (loadPhase env P' s.jsonWatchers s.jsonCache).1
        ((loadPhase env P' s.jsonWatchers s.jsonCache).1,
         (loadPhase env P' s.jsonWatchers s.jsonCache).2)).1 := rfl

theorem handle_cache_some (env : String → Except String Json)
    (P P' : List String) (s : StoreState) (l : String) (v : Json)
    (hinv : StoreInv P s)
    (h : lookupEntries (handleJsonCacheAndWatcher env P' s).jsonCache l = some v) :
    ∃ r ∈ P', labelOf r = l := by
  obtain ⟨hpl, hwnd, hwm, hwf, hprov⟩ := hinv
  rw [handle_cache_eq] at h
  have hwf1 : WFa (loadPhase env P' s.jsonWatchers s.jsonCache).2 :=
    loadPhase_cache_wf env P' _ _ hwf
  have h2 := cleanupPhase_cache_some P' s.jsonPathLabels _ _ _ l v hwf1 h
  rcases loadPhase_cache_some env P' s.jsonWatchers s.jsonCache l v h2 with h3 | h3
  · rcases List.mem_map.mp h3 with ⟨r, hr, hrl⟩
    exact ⟨r, hr, hrl⟩
  · obtain ⟨hl0, r, hrP, hrl⟩ := hprov l v h3
    by_cases hrP' : r ∈ P'
    · exact ⟨r, hrP', hrl⟩
    · exfalso
      have hrw : r ∈ (loadPhase env P' s.jsonWatchers s.jsonCache).1 :=
        (loadPhase_ws_mem env P' _ _ r).mpr (Or.inl ((hwm r).mpr hrP))
      have hric : includesStr P' r = false := includesStr_eq_false P' r hrP'
      have holr : lookupEntries s.jsonPathLabels r = some l := by
        rw [hpl, lookupEntries_buildLabels, if_pos hrP, hrl]
      have hnone := cleanupPhase_deletes P' s.jsonPathLabels
        (loadPhase env P' s.jsonWatchers s.jsonCache).1
        (loadPhase env P' s.jsonWatchers s.jsonCache).1
        (loadPhase env P' s.jsonWatchers s.jsonCache).2 r l hwf1
        hrw hric holr hl0
      rw [hnone] at h
      exact absurd h (by simp)

theorem handle_inv (env : String → Except String Json) (P P' : List String)
    (s : StoreState) (hinv : StoreInv P s)
    (hlabP' : ∀ r ∈ P', labelOf r ≠ "") :
    StoreInv P' (handleJsonCacheAndWatcher env P' s) := by
  have hinv' := hinv
  obtain ⟨hpl, hwnd, hwm, hwf, hprov⟩ := hinv
  refine ⟨rfl, ?_, ?_, ?_, ?_⟩
  · rw [handle_ws_eq]
    exact cleanupPhase_ws_nodup _ _ _ _ _ (loadPhase_ws_nodup env P' _ _ hwnd)
  · intro p
    rw [handle_ws_eq]
    constructor
    · intro hp
      by_contra hpP'
      exact cleanupPhase_ws_removed P' s.jsonPathLabels _ _ _ p
        (loadPhase_ws_nodup env P' _ _ hwnd)
        (cleanupPhase_ws_sub _ _ _ _ _ _ hp)
        (includesStr_eq_false P' p hpP') hp
    · intro hp
      exact cleanupPhase_ws_keep _ _ _ _ _ p
        ((loadPhase_ws_mem env P' _ _ p).mpr (Or.inr hp))
        ((includesStr_iff P' p).mpr hp)
  · rw [handle_cache_eq]
    exact cleanupPhase_cache_wf _ _ _ _ _ (loadPhase_cache_wf env P' _ _ hwf)
  · intro l v h
    obtain ⟨r, hr, hrl⟩ := handle_cache_some env P P' s l v hinv' h
    exact ⟨hrl ▸ hlabP' r hr, r, hr, hrl⟩

theorem reachable_inv (env : String → Except String Json) (P : List String)
    (s : StoreState) (h : Reachable env P s) :
    (∀ r ∈ P, labelOf r ≠ "") ∧ StoreInv P s := by
  induction h with
  | base =>
    constructor
    · intro r hr
      simp at hr
    · exact ⟨rfl, List.nodup_nil, fun p => Iff.rfl, List.nodup_nil,
        fun l v hl => by simp [lookupEntries] at hl⟩
  | step P' hlab hre ih =>
    exact ⟨hlab, handle_inv env _ P' _ ih.2 hlab⟩

/-- Claim C9.  For any store state reached through configuration updates and
any next configuration `P'` (with truthy labels): every label present in the
resulting cache corresponds to a configured path of `P'` — with pairwise
distinct labels, to exactly one; at most one tree exists per label; a path
removed from the configuration loses its cache entry, so its label no longer
appears; and every still-configured path's label maps to the tree freshly
loaded from its file, so other labels are unaffected (their entry is a
function of the file contents alone) provided no removed path shares their
label. -/
theorem documentStore_label_invariant (env : String → Except String Json)
    (P P' : List String) (s : StoreState)
    (hre : Reachable env P s) :
    (∀ l v,
        lookupEntries (handleJsonCacheAndWatcher env P' s).jsonCache l = some v →
        ∃ r ∈ P', labelOf r = l) ∧
    ((P'.map labelOf).Nodup →
      ∀ l v,
        lookupEntries (handleJsonCacheAndWatcher env P' s).jsonCache l = some v →
        ∃ r ∈ P', labelOf r = l ∧ ∀ r' ∈ P', labelOf r' = l → r' = r) ∧
    WFa (handleJsonCacheAndWatcher env P' s).jsonCache ∧
    (∀ p, p ∈ P → p ∉ P' →
        lookupEntries (handleJsonCacheAndWatcher env P' s).jsonCache (labelOf p) =
          none) ∧
    ((P'.map labelOf).Nodup →
      ∀ q, q ∈ P' → (∀ r, r ∈ P → r ∉ P' → labelOf r ≠ labelOf q) →
        lookupEntries (handleJsonCacheAndWatcher env P' s).jsonCache (labelOf q) =
          some (loadJson (env q))) := by
  obtain ⟨hlabP, hinv⟩ := reachable_inv env P s hre
  obtain ⟨hpl, hwnd, hwm, hwf, hprov⟩ := hinv
  have hinv' : StoreInv P s := ⟨hpl, hwnd, hwm, hwf, hprov⟩
  have hwf1 : WFa (loadPhase env P' s.jsonWatchers s.jsonCache).2 :=
    loadPhase_cache_wf env P' _ _ hwf
  refine ⟨?_, ?_, ?_, ?_, ?_⟩
  · intro l v h
    exact handle_cache_some env P P' s l v hinv' h
  · intro hnd l v h
    obtain ⟨r, hr, hrl⟩ := handle_cache_some env P P' s l v hinv' h
    refine ⟨r, hr, hrl, ?_⟩
    intro r' hr' hrl'
    exact List.inj_on_of_nodup_map hnd hr' hr (hrl'.trans hrl.symm)
  · rw [handle_cache_eq]
    exact cleanupPhase_cache_wf _ _ _ _ _ hwf1
  · intro p hpP hpP'
    rw [handle_cache_eq]
    have hrw : p ∈ (loadPhase env P' s.jsonWatchers s.jsonCache).1 :=
      (loadPhase_ws_mem env P' _ _ p).mpr (Or.inl ((hwm p).mpr hpP))
    have holr : lookupEntries s.jsonPathLabels p = some (labelOf p) := by
      rw [hpl, lookupEntries_buildLabels, if_pos hpP]
    exact cleanupPhase_deletes P' s.jsonPathLabels
      (loadPhase env P' s.jsonWatchers s.jsonCache).1
      (loadPhase env P' s.jsonWatchers s.jsonCache).1
      (loadPhase env P' s.jsonWatchers s.jsonCache).2 p (labelOf p) hwf1
      hrw (includesStr_eq_false P' p hpP') holr (hlabP p hpP)
  · intro hnd q hq hnc
    rw [handle_cache_eq]
    rw [cleanupPhase_cache_preserve]
    · exact loadPhase_cache_mem env P' _ _ q hnd hq
    · intro r hr hrc lab hollab hlab0
      rcases (loadPhase_ws_mem env P' _ _ r).mp hr with h1 | h1
      · have hrP : r ∈ P := (hwm r).mp h1
        have hrP' : r ∉ P' := fun hh => by
          simp [(includesStr_iff P' r).mpr hh] at hrc
        rw [hpl, lookupEntries_buildLabels, if_pos hrP] at hollab
        have : lab = labelOf r := by injection hollab.symm
        rw [this]
        exact hnc r hrP hrP'
      · exact absurd ((includesStr_iff P' r).mpr h1) (by simp [hrc])

/-- A concrete file-system environment for the store witness. -/
def c9Env : String → Except String Json := fun p =>
  if p = "i18n/en.json" then Except.ok (Json.obj [("a", Json.str "Hello")])
  else if p = "i18n/vi.json" then Except.ok (Json.obj [("a", Json.str "Chao")])
  else Except.error "missing"

/-- Witness for `documentStore_label_invariant`: after configuring
`en` and `vi` and then removing `vi`, the label `vi` is gone from the cache
while `en` still maps to its loaded tree. -/
theorem documentStore_label_invariant_witness :
    lookupEntries (handleJsonCacheAndWatcher c9Env ["i18n/en.json"]
      (handleJsonCacheAndWatcher c9Env ["i18n/en.json", "i18n/vi.json"]
        initialStore)).jsonCache "vi" = none ∧
    lookupEntries (handleJsonCacheAndWatcher c9Env ["i18n/en.json"]
      (handleJsonCacheAndWatcher c9Env ["i18n/en.json", "i18n/vi.json"]
        initialStore)).jsonCache "en" = some (Json.obj [("a", Json.str "Hello")]) :=
  have hre : Reachable c9Env ["i18n/en.json", "i18n/vi.json"]
      (handleJsonCacheAndWatcher c9Env ["i18n/en.json", "i18n/vi.json"]
        initialStore) :=
    Reachable.step ["i18n/en.json", "i18n/vi.json"] (by decide) Reachable.base
  ⟨(documentStore_label_invariant c9Env ["i18n/en.json", "i18n/vi.json"]
      ["i18n/en.json"] _ hre).2.2.2.1 "i18n/vi.json" (by decide) (by decide),
   (documentStore_label_invariant c9Env ["i18n/en.json", "i18n/vi.json"]
      ["i18n/en.json"] _ hre).2.2.2.2 (by decide) "i18n/en.json" (by decide)
      (by decide)⟩
